import Mathlib

/-!
Verification of the data pipeline of the two tutorial notebooks
(nanoGPT word-level text generation, and GPT-Adder arithmetic
classification).

Strings are modelled as `List Char`.  The notebooks only ever feed ASCII
text to `str.lower`, `re` and the tokenizers, so the ASCII reading of the
character classes (`\w`, `\s`, upper/lower case) is used.  Dictionary
accesses that can raise `KeyError` in Python are modelled as
`Option`-valued lookups: a `none` result corresponds to an uncaught
runtime error.  Randomness is made explicit: functions that consume draws
from the seeded generator take those draws (or a generator state) as an
argument.
-/

namespace Tutorials

/-- Python regex class `\w` (word character), ASCII reading:
letters, digits and underscore. -/
def isWordChar (c : Char) : Bool := c.isAlpha || c.isDigit || c == '_'

/-- Python regex class `\s` (whitespace), ASCII reading:
space, tab, newline, carriage return, vertical tab, form feed. -/
def isSpaceChar (c : Char) : Bool :=
  c == ' ' || c == '\t' || c == '\n' || c == '\r' ||
  c == Char.ofNat 11 || c == Char.ofNat 12

/-- First index of `w` in the list `l`, as built by
`{x: i for i, x in enumerate(l)}` (for duplicate-free `l` the Python dict
holds exactly the first = only index of each element); `none` models a
`KeyError` on lookup of an absent key. -/
def dictIdx {α : Type} [DecidableEq α] : List α → α → Option Nat
  | [], _ => none
  | x :: xs, w => if x = w then some 0 else (dictIdx xs w).map (· + 1)

/-- Uppercase ASCII letters, in order. -/
def upperChars : List Char := "ABCDEFGHIJKLMNOPQRSTUVWXYZ".toList

/-- Lowercase ASCII letters, in order. -/
def lowerChars : List Char := "abcdefghijklmnopqrstuvwxyz".toList

/-- `str.lower` on one character (ASCII reading). -/
def pyLowerChar (c : Char) : Char :=
  match dictIdx upperChars c with
  | some i => lowerChars.getD i c
  | none => c

/-- `str.lower` (ASCII reading). -/
def pyLower (s : List Char) : List Char := s.map pyLowerChar

/-- Fuelled scanner for `re.findall(r'\b\w+\b|[^\w\s]', s)`:
a maximal run of word characters is one token, every other
non-whitespace character is a one-character token, whitespace separates.
The fuel only serves to make the recursion structural; `findallTokens`
instantiates it with the length of the string, which is always enough. -/
def findallTokensFuel : Nat → List Char → List (List Char)
  | 0, _ => []
  | _ + 1, [] => []
  | fuel + 1, c :: rest =>
    if isWordChar c then
      ((c :: rest).takeWhile isWordChar) ::
        findallTokensFuel fuel (rest.dropWhile isWordChar)
    else if isSpaceChar c then
      findallTokensFuel fuel rest
    else
      [c] :: findallTokensFuel fuel rest

/-- `re.findall(r'\b\w+\b|[^\w\s]', s)`. -/
def findallTokens (s : List Char) : List (List Char) :=
  findallTokensFuel s.length s

theorem length_dropWhile_le (p : Char → Bool) (l : List Char) :
    (l.dropWhile p).length ≤ l.length := by
  induction l with
  | nil => simp [List.dropWhile]
  | cons c rest ih =>
    rw [List.dropWhile_cons]
    split
    · exact Nat.le_trans ih (Nat.le_succ _)
    · simp

/-- The fuel argument of `findallTokensFuel` is irrelevant as soon as it
is at least the length of the string. -/
theorem findallTokensFuel_congr (f1 : Nat) : ∀ (f2 : Nat) (s : List Char),
    s.length ≤ f1 → s.length ≤ f2 →
    findallTokensFuel f1 s = findallTokensFuel f2 s := by
  induction f1 with
  | zero =>
    intro f2 s h1 _
    have hs : s = [] := List.eq_nil_of_length_eq_zero (Nat.le_zero.mp h1)
    subst hs
    cases f2 <;> rfl
  | succ f ih =>
    intro f2 s h1 h2
    cases s with
    | nil => cases f2 <;> rfl
    | cons c rest =>
      cases f2 with
      | zero => simp at h2
      | succ f2p =>
        simp only [findallTokensFuel]
        have hr : rest.length ≤ f := Nat.lt_succ_iff.mp h1
        have hr2 : rest.length ≤ f2p := Nat.lt_succ_iff.mp h2
        have hd : (rest.dropWhile isWordChar).length ≤ rest.length :=
          length_dropWhile_le _ _
        rw [ih f2p (rest.dropWhile isWordChar) (Nat.le_trans hd hr) (Nat.le_trans hd hr2),
        ih f2p rest hr hr2]

theorem findallTokens_nil : findallTokens [] = [] := rfl

/-- Unfolding of `findallTokens` at a word character: the maximal word
run becomes a token and scanning resumes after it. -/
theorem findallTokens_cons_word (c : Char) (rest : List Char)
    (hc : isWordChar c = true) :
    findallTokens (c :: rest) =
      ((c :: rest).takeWhile isWordChar) ::
        findallTokens (rest.dropWhile isWordChar) := by
  show findallTokensFuel (rest.length + 1) (c :: rest) = _
  simp only [findallTokensFuel, hc, if_pos]
  rw [findallTokensFuel_congr rest.length (rest.dropWhile isWordChar).length
    (rest.dropWhile isWordChar) (length_dropWhile_le _ _) (Nat.le_refl _)]
  rfl

/-- Unfolding of `findallTokens` at whitespace: the character is skipped. -/
theorem findallTokens_cons_space (c : Char) (rest : List Char)
    (hc : isWordChar c = false) (hs : isSpaceChar c = true) :
    findallTokens (c :: rest) = findallTokens rest := by
  show findallTokensFuel (rest.length + 1) (c :: rest) = _
  simp only [findallTokensFuel, hc, hs]
  rfl

/-- Unfolding of `findallTokens` at a non-word non-space character:
it becomes a one-character token. -/
theorem findallTokens_cons_other (c : Char) (rest : List Char)
    (hc : isWordChar c = false) (hs : isSpaceChar c = false) :
    findallTokens (c :: rest) = [c] :: findallTokens rest := by
  show findallTokensFuel (rest.length + 1) (c :: rest) = _
  simp only [findallTokensFuel, hc, hs]
  rfl

/-- Shape of every token produced by the regex: either a nonempty run of
word characters, or a single character that is neither word nor space. -/
def goodToken (w : List Char) : Prop :=
  (w ≠ [] ∧ ∀ c ∈ w, isWordChar c = true) ∨
  (∃ c, w = [c] ∧ isWordChar c = false ∧ isSpaceChar c = false)

theorem mem_takeWhile_word (p : Char → Bool) :
    ∀ (l : List Char), ∀ c ∈ l.takeWhile p, p c = true := by
  intro l
  induction l with
  | nil => intro c hc; simp [List.takeWhile] at hc
  | cons a rest ih =>
    intro c hc
    rw [List.takeWhile_cons] at hc
    by_cases ha : p a = true
    · simp [ha] at hc
      rcases hc with h | h
      · rwa [h]
      · exact ih c h
    · simp [Bool.eq_false_iff.mpr ha] at hc

theorem findallTokensFuel_goodToken :
    ∀ (fuel : Nat) (s : List Char), ∀ w ∈ findallTokensFuel fuel s, goodToken w := by
  intro fuel
  induction fuel with
  | zero => intro s w hw; simp [findallTokensFuel] at hw
  | succ f ih =>
    intro s w hw
    cases s with
    | nil => simp [findallTokensFuel] at hw
    | cons c rest =>
      simp only [findallTokensFuel] at hw
      by_cases hc : isWordChar c = true
      · simp only [hc, if_pos] at hw
        rcases List.mem_cons.mp hw with h | h
        · left
          subst h
          constructor
          · simp [List.takeWhile_cons, hc]
          · exact mem_takeWhile_word isWordChar (c :: rest)
        · exact ih _ w h
      · rw [Bool.not_eq_true] at hc
        simp only [hc] at hw
        by_cases hs : isSpaceChar c = true
        · simp only [hs, if_pos] at hw
          exact ih _ w hw
        · rw [Bool.not_eq_true] at hs
          simp only [hs] at hw
          rcases List.mem_cons.mp hw with h | h
          · right; exact ⟨c, h, hc, hs⟩
          · exact ih _ w h

theorem findallTokens_goodToken (s : List Char) :
    ∀ w ∈ findallTokens s, goodToken w :=
  findallTokensFuel_goodToken s.length s

theorem mem_of_mem_takeWhile {p : Char → Bool} {l : List Char} {c : Char}
    (h : c ∈ l.takeWhile p) : c ∈ l := by
  induction l with
  | nil => simp [List.takeWhile] at h
  | cons a rest ih =>
    rw [List.takeWhile_cons] at h
    by_cases ha : p a = true
    · simp [ha] at h
      rcases h with h | h
      · simp [h]
      · exact List.mem_cons_of_mem _ (ih h)
    · simp [Bool.eq_false_iff.mpr ha] at h

theorem mem_of_mem_dropWhile {p : Char → Bool} {l : List Char} {c : Char}
    (h : c ∈ l.dropWhile p) : c ∈ l := by
  induction l with
  | nil => simp [List.dropWhile] at h
  | cons a rest ih =>
    rw [List.dropWhile_cons] at h
    by_cases ha : p a = true
    · simp only [ha, if_pos] at h
      exact List.mem_cons_of_mem _ (ih h)
    · rw [if_neg (by simp [ha])] at h
      exact h

/-- Every character of every token comes from the scanned string. -/
theorem findallTokensFuel_chars :
    ∀ (fuel : Nat) (s : List Char), ∀ w ∈ findallTokensFuel fuel s, ∀ c ∈ w, c ∈ s := by
  intro fuel
  induction fuel with
  | zero => intro s w hw; simp [findallTokensFuel] at hw
  | succ f ih =>
    intro s w hw c hc
    cases s with
    | nil => simp [findallTokensFuel] at hw
    | cons a rest =>
      simp only [findallTokensFuel] at hw
      by_cases ha : isWordChar a = true
      · simp only [ha, if_pos] at hw
        rcases List.mem_cons.mp hw with h | h
        · subst h
          exact mem_of_mem_takeWhile hc
        · exact List.mem_cons_of_mem _
            (mem_of_mem_dropWhile (ih (rest.dropWhile isWordChar) w h c hc))
      · rw [Bool.not_eq_true] at ha
        simp only [ha] at hw
        by_cases hs : isSpaceChar a = true
        · simp only [hs, if_pos] at hw
          exact List.mem_cons_of_mem _ (ih rest w hw c hc)
        · rw [Bool.not_eq_true] at hs
          simp only [hs] at hw
          rcases List.mem_cons.mp hw with h | h
          · subst h
            simp at hc
            simp [hc]
          · exact List.mem_cons_of_mem _ (ih rest w h c hc)

theorem findallTokens_chars (s : List Char) :
    ∀ w ∈ findallTokens s, ∀ c ∈ w, c ∈ s :=
  findallTokensFuel_chars s.length s

theorem dictIdx_isSome {α : Type} [DecidableEq α] (l : List α) (w : α) :
    (dictIdx l w).isSome = true ↔ w ∈ l := by
  induction l with
  | nil => simp [dictIdx]
  | cons x xs ih =>
    simp only [dictIdx]
    by_cases hx : x = w
    · simp [hx]
    · rw [if_neg hx]
      constructor
      · intro h
        rcases Option.isSome_iff_exists.mp h with ⟨a, ha⟩
        rcases Option.map_eq_some'.mp ha with ⟨j, hj, _⟩
        exact List.mem_cons_of_mem _ (ih.mp (Option.isSome_iff_exists.mpr ⟨j, hj⟩))
      · intro h
        rcases List.mem_cons.mp h with h | h
        · exact absurd h.symm hx
        · rcases Option.isSome_iff_exists.mp (ih.mpr h) with ⟨j, hj⟩
          simp [hj]

theorem dictIdx_getElem {α : Type} [DecidableEq α] :
    ∀ (l : List α) (w : α) (i : Nat), dictIdx l w = some i → l[i]? = some w := by
  intro l
  induction l with
  | nil => intro w i h; simp [dictIdx] at h
  | cons x xs ih =>
    intro w i h
    simp only [dictIdx] at h
    by_cases hx : x = w
    · simp only [hx, if_pos] at h
      have hi : i = 0 := by
        have := h
        simp at this
        omega
      subst hi
      simp [hx]
    · simp only [hx, if_neg] at h
      rcases Option.map_eq_some'.mp h with ⟨j, hj, hji⟩
      subst hji
      simp only [List.getElem?_cons_succ]
      exact ih w j hj

theorem dictIdx_of_nodup {α : Type} [DecidableEq α] :
    ∀ (l : List α), l.Nodup → ∀ (i : Nat) (h : i < l.length),
    dictIdx l (l.get ⟨i, h⟩) = some i := by
  intro l
  induction l with
  | nil => intro _ i h; simp at h
  | cons x xs ih =>
    intro hnd i h
    rcases List.nodup_cons.mp hnd with ⟨hx, hxs⟩
    cases i with
    | zero => simp [dictIdx]
    | succ j =>
      have hj : j < xs.length := by
        simp only [List.length_cons] at h
        omega
      have hgs : (x :: xs).get ⟨j + 1, h⟩ = xs.get ⟨j, hj⟩ := rfl
      have hne : x ≠ xs.get ⟨j, hj⟩ := by
        intro hEq
        exact hx (hEq ▸ List.get_mem xs _ _)
      rw [hgs]
      simp only [dictIdx]
      rw [if_neg hne, ih hxs j hj]
      rfl

/-- Lexicographic (code-point) comparison of strings, as used by Python
`sorted` on `str`. -/
def wordLe : List Char → List Char → Bool
  | [], _ => true
  | _ :: _, [] => false
  | a :: as, b :: bs => if a = b then wordLe as bs else decide (a.toNat < b.toNat)

/-- Insertion into a sorted list (helper for `pySorted`). -/
def insertSorted (w : List Char) : List (List Char) → List (List Char)
  | [] => [w]
  | x :: xs => if wordLe w x then w :: x :: xs else x :: insertSorted w xs

/-- Python `sorted` on a list of strings (insertion sort; on
duplicate-free inputs, which is the only way the notebooks use it, every
correct sort produces the same list). -/
def pySorted : List (List Char) → List (List Char)
  | [] => []
  | x :: xs => insertSorted x (pySorted xs)

theorem insertSorted_perm (w : List Char) :
    ∀ (l : List (List Char)), (insertSorted w l).Perm (w :: l) := by
  intro l
  induction l with
  | nil => simp [insertSorted]
  | cons x xs ih =>
    simp only [insertSorted]
    split
    · exact List.Perm.refl _
    · exact (List.Perm.cons x ih).trans (List.Perm.swap w x xs)

theorem pySorted_perm : ∀ (l : List (List Char)), (pySorted l).Perm l := by
  intro l
  induction l with
  | nil => simp [pySorted]
  | cons x xs ih =>
    exact (insertSorted_perm x (pySorted xs)).trans (List.Perm.cons x ih)

/-- `sorted(list(set(words)))` where `words` are the regex tokens of the
lowercased corpus: the word-level vocabulary of the nanoGPT notebook
(`unique_words`). -/
def buildVocab (text : List Char) : List (List Char) :=
  pySorted (findallTokens (pyLower text)).dedup

theorem buildVocab_nodup (text : List Char) : (buildVocab text).Nodup :=
  ((pySorted_perm _).nodup_iff).mpr (List.nodup_dedup _)

theorem mem_buildVocab (text : List Char) (w : List Char) :
    w ∈ buildVocab text ↔ w ∈ findallTokens (pyLower text) := by
  rw [Tutorials.buildVocab, (pySorted_perm _).mem_iff, List.mem_dedup]

/-- `stoi` of the nanoGPT notebook: dictionary from word to id
(`{word: i for i, word in enumerate(unique_words)}`); `none` models a
`KeyError`. -/
def stoi (vocab : List (List Char)) (w : List Char) : Option Nat :=
  dictIdx vocab w

/-- `itos` of the nanoGPT notebook: dictionary from id to word
(`{i: word for i, word in enumerate(unique_words)}`); `none` models a
`KeyError`. -/
def itos (vocab : List (List Char)) (i : Nat) : Option (List Char) :=
  vocab[i]?

/-- The list comprehension in `encode`:
`[stoi[word] for word in words if word in stoi]`.  The lookup `stoi[word]`
is evaluated only under the membership guard, so an unknown token is
skipped rather than raising. -/
def encodeTokens (vocab : List (List Char)) : List (List Char) → Option (List Nat)
  | [] => some []
  | w :: ws =>
    if (stoi vocab w).isSome then
      match stoi vocab w, encodeTokens vocab ws with
      | some i, some l => some (i :: l)
      | _, _ => none
    else
      encodeTokens vocab ws

/-- `encode` of the nanoGPT notebook: regex-tokenize the lowercased
string and look every token up in `stoi`, skipping unknown tokens. -/
def encode (vocab : List (List Char)) (s : List Char) : Option (List Nat) :=
  encodeTokens vocab (findallTokens (pyLower s))

/-- The list comprehension in `decode`: `[itos[i] for i in l]`; an
unknown id raises a `KeyError`, modelled as `none`. -/
def itosList (vocab : List (List Char)) : List Nat → Option (List (List Char))
  | [] => some []
  | i :: l =>
    match itos vocab i, itosList vocab l with
    | some w, some ws => some (w :: ws)
    | _, _ => none

/-- The punctuation set `".,!?;:"` that `decode` glues to the previous
word; Python `word in ".,!?;:"` is a substring test. -/
def punctChars : List Char := ".,!?;:".toList

/-- Python `in` on strings: contiguous substring test. -/
def isSubstrOf (w : List Char) : List Char → Bool
  | [] => w.isEmpty
  | c :: t => w.isPrefixOf (c :: t) || isSubstrOf w t

/-- The join loop of `decode` for all words after the first: punctuation
(in the sense of `word in ".,!?;:"`) is appended directly, any other word
is preceded by a space. -/
def joinRest : List (List Char) → List Char
  | [] => []
  | w :: ws => (if isSubstrOf w punctChars then w else ' ' :: w) ++ joinRest ws

/-- The join loop of `decode`: the first word is appended without a
leading space (both the `word in ".,!?;:"` branch and the `i == 0` branch
do that), the rest via `joinRest`. -/
def joinWords : List (List Char) → List Char
  | [] => []
  | w :: ws => w ++ joinRest ws

/-- `decode` of the nanoGPT notebook: map ids to words via `itos`, then
rebuild a string, gluing punctuation to the previous word. -/
def decode (vocab : List (List Char)) (l : List Nat) : Option (List Char) :=
  (itosList vocab l).map joinWords

theorem takeWhile_append_of_all {p : Char → Bool} :
    ∀ (w r : List Char), (∀ c ∈ w, p c = true) →
    (w ++ r).takeWhile p = w ++ r.takeWhile p := by
  intro w
  induction w with
  | nil => intro r _; simp
  | cons a as ih =>
    intro r hall
    have ha : p a = true := hall a (List.mem_cons_self a as)
    simp only [List.cons_append, List.takeWhile_cons, ha, if_pos]
    rw [ih r (fun c hc => hall c (List.mem_cons_of_mem a hc))]

theorem dropWhile_append_of_all {p : Char → Bool} :
    ∀ (w r : List Char), (∀ c ∈ w, p c = true) →
    (w ++ r).dropWhile p = r.dropWhile p := by
  intro w
  induction w with
  | nil => intro r _; simp
  | cons a as ih =>
    intro r hall
    have ha : p a = true := hall a (List.mem_cons_self a as)
    simp only [List.cons_append, List.dropWhile_cons, ha, if_pos]
    exact ih r (fun c hc => hall c (List.mem_cons_of_mem a hc))

/-- A string that is empty or starts with a non-word character. -/
def headNotWord (r : List Char) : Prop :=
  r = [] ∨ ∃ c t, r = c :: t ∧ isWordChar c = false

theorem takeWhile_eq_nil_of_headNotWord {r : List Char} (h : headNotWord r) :
    r.takeWhile isWordChar = [] := by
  rcases h with h | ⟨c, t, hr, hc⟩
  · simp [h]
  · subst hr
    simp [List.takeWhile_cons, hc]

theorem dropWhile_eq_self_of_headNotWord {r : List Char} (h : headNotWord r) :
    r.dropWhile isWordChar = r := by
  rcases h with h | ⟨c, t, hr, hc⟩
  · simp [h]
  · subst hr
    simp [List.dropWhile_cons, hc]

/-- Scanning a maximal word run followed by a boundary yields the run as
one token followed by the tokens of the remainder. -/
theorem findallTokens_word_append (w r : List Char) (hne : w ≠ [])
    (hall : ∀ c ∈ w, isWordChar c = true) (hr : headNotWord r) :
    findallTokens (w ++ r) = w :: findallTokens r := by
  cases w with
  | nil => exact absurd rfl hne
  | cons a as =>
    have ha : isWordChar a = true := hall a (List.mem_cons_self a as)
    rw [List.cons_append, findallTokens_cons_word a (as ++ r) ha]
    have h1 : (a :: (as ++ r)).takeWhile isWordChar = a :: as := by
      rw [show a :: (as ++ r) = (a :: as) ++ r by rfl,
        takeWhile_append_of_all (a :: as) r hall,
        takeWhile_eq_nil_of_headNotWord hr, List.append_nil]
    have h2 : (as ++ r).dropWhile isWordChar = r := by
      rw [dropWhile_append_of_all as r
        (fun c hc => hall c (List.mem_cons_of_mem a hc)),
        dropWhile_eq_self_of_headNotWord hr]
    rw [h1, h2]

theorem isPrefixOf_subset :
    ∀ (w s : List Char), w.isPrefixOf s = true → ∀ c ∈ w, c ∈ s := by
  intro w
  induction w with
  | nil => intro s _ c hc; simp at hc
  | cons a as ih =>
    intro s hp c hc
    cases s with
    | nil => simp [List.isPrefixOf] at hp
    | cons b bs =>
      simp only [List.isPrefixOf, Bool.and_eq_true, beq_iff_eq] at hp
      rcases List.mem_cons.mp hc with h | h
      · subst h
        simp [hp.1]
      · exact List.mem_cons_of_mem _ (ih bs hp.2 c h)

theorem isSubstrOf_subset :
    ∀ (s w : List Char), isSubstrOf w s = true → ∀ c ∈ w, c ∈ s := by
  intro s
  induction s with
  | nil =>
    intro w h c hc
    simp only [isSubstrOf, List.isEmpty_iff] at h
    subst h
    simp at hc
  | cons b bs ih =>
    intro w h c hc
    simp only [isSubstrOf, Bool.or_eq_true] at h
    rcases h with h | h
    · exact isPrefixOf_subset w (b :: bs) h c hc
    · exact List.mem_cons_of_mem _ (ih w h c hc)

theorem punctChars_not_word : ∀ c ∈ punctChars, isWordChar c = false := by
  decide

/-- A nonempty all-word-character token is not glued as punctuation. -/
theorem wordRun_not_substr_punct (w : List Char) (hne : w ≠ [])
    (hall : ∀ c ∈ w, isWordChar c = true) :
    isSubstrOf w punctChars = false := by
  cases hs : isSubstrOf w punctChars with
  | false => rfl
  | true =>
    exfalso
    cases w with
    | nil => exact hne rfl
    | cons a as =>
      have ha : a ∈ punctChars :=
        isSubstrOf_subset punctChars (a :: as) hs a (List.mem_cons_self a as)
      have := punctChars_not_word a ha
      rw [hall a (List.mem_cons_self a as)] at this
      exact Bool.true_eq_false.mp this

theorem space_not_word : isWordChar ' ' = false := by decide

theorem space_is_space : isSpaceChar ' ' = true := by decide

/-- Re-scanning the joined tail of a decoded token list gives back the
token list, and the joined tail never starts with a word character. -/
theorem findallTokens_joinRest :
    ∀ (ws : List (List Char)), (∀ w ∈ ws, goodToken w) →
    findallTokens (joinRest ws) = ws ∧ headNotWord (joinRest ws) := by
  intro ws
  induction ws with
  | nil => intro _; exact ⟨rfl, Or.inl rfl⟩
  | cons w ws ih =>
    intro hgood
    have hw : goodToken w := hgood w (List.mem_cons_self w ws)
    rcases ih (fun v hv => hgood v (List.mem_cons_of_mem w hv)) with ⟨ihEq, ihHead⟩
    rcases hw with ⟨hne, hall⟩ | ⟨c, hc, hcw, hcs⟩
    · have hpunct : isSubstrOf w punctChars = false :=
        wordRun_not_substr_punct w hne hall
      have hjr : joinRest (w :: ws) = ' ' :: (w ++ joinRest ws) := by
        simp [joinRest, hpunct]
      constructor
      · rw [hjr, findallTokens_cons_space ' ' _ space_not_word space_is_space,
          findallTokens_word_append w _ hne hall ihHead, ihEq]
      · rw [hjr]
        exact Or.inr ⟨' ', _, rfl, space_not_word⟩
    · subst hc
      by_cases hp : isSubstrOf [c] punctChars = true
      · have hjr : joinRest ([c] :: ws) = c :: joinRest ws := by
          simp [joinRest, hp]
        constructor
        · rw [hjr, findallTokens_cons_other c _ hcw hcs, ihEq]
        · rw [hjr]
          exact Or.inr ⟨c, _, rfl, hcw⟩
      · have hjr : joinRest ([c] :: ws) = ' ' :: c :: joinRest ws := by
          simp [joinRest, Bool.eq_false_iff.mpr hp]
        constructor
        · rw [hjr, findallTokens_cons_space ' ' _ space_not_word space_is_space,
            findallTokens_cons_other c _ hcw hcs, ihEq]
        · rw [hjr]
          exact Or.inr ⟨' ', _, rfl, space_not_word⟩

/-- Re-scanning a decoded token list gives back the token list. -/
theorem findallTokens_joinWords (ws : List (List Char))
    (hgood : ∀ w ∈ ws, goodToken w) :
    findallTokens (joinWords ws) = ws := by
  cases ws with
  | nil => rfl
  | cons w ws =>
    have hw : goodToken w := hgood w (List.mem_cons_self w ws)
    rcases findallTokens_joinRest ws
      (fun v hv => hgood v (List.mem_cons_of_mem w hv)) with ⟨ihEq, ihHead⟩
    rcases hw with ⟨hne, hall⟩ | ⟨c, hc, hcw, hcs⟩
    · rw [joinWords, findallTokens_word_append w _ hne hall ihHead, ihEq]
    · subst hc
      rw [joinWords, List.cons_append, List.nil_append,
        findallTokens_cons_other c _ hcw hcs, ihEq]

theorem dictIdx_lt_length {α : Type} [DecidableEq α] {l : List α} {w : α} {i : Nat}
    (h : dictIdx l w = some i) : i < l.length := by
  rcases List.getElem?_eq_some.mp (dictIdx_getElem l w i h) with ⟨hlt, _⟩
  exact hlt

theorem lowerChars_no_upper : ∀ c ∈ lowerChars, dictIdx upperChars c = none := by
  decide

theorem pyLowerChar_of_none {c : Char} (h : dictIdx upperChars c = none) :
    pyLowerChar c = c := by
  unfold pyLowerChar
  rw [h]

theorem pyLowerChar_of_some {c : Char} {i : Nat} (h : dictIdx upperChars c = some i) :
    pyLowerChar c = lowerChars.getD i c := by
  unfold pyLowerChar
  rw [h]

/-- `str.lower` is idempotent on characters. -/
theorem pyLowerChar_idem (c : Char) : pyLowerChar (pyLowerChar c) = pyLowerChar c := by
  cases h : dictIdx upperChars c with
  | none => rw [pyLowerChar_of_none h, pyLowerChar_of_none h]
  | some i =>
    have hup : i < upperChars.length := dictIdx_lt_length h
    have hi : i < lowerChars.length := by
      have hl : upperChars.length = lowerChars.length := by decide
      omega
    have h1 : pyLowerChar c = lowerChars.getD i c := pyLowerChar_of_some h
    have h2 : lowerChars.getD i c = lowerChars.get ⟨i, hi⟩ := by
      rw [List.getD_eq_getElem?_getD, List.getElem?_eq_getElem hi]
      rfl
    have hmem : pyLowerChar c ∈ lowerChars := by
      rw [h1, h2]
      exact List.get_mem _ _ _
    rw [pyLowerChar_of_none (lowerChars_no_upper _ hmem), h1]

/-- Every character of a lowercased string is fixed by lowercasing. -/
theorem pyLower_mem_fixed {s : List Char} {c : Char} (hc : c ∈ pyLower s) :
    pyLowerChar c = c := by
  rcases List.mem_map.mp hc with ⟨d, _, hd⟩
  rw [← hd]
  exact pyLowerChar_idem d

theorem pyLower_append (u v : List Char) :
    pyLower (u ++ v) = pyLower u ++ pyLower v := by
  simp [pyLower]

/-- Lowercasing fixes a string all of whose characters it fixes. -/
theorem pyLower_fixed {s : List Char} (h : ∀ c ∈ s, pyLowerChar c = c) :
    pyLower s = s := by
  induction s with
  | nil => rfl
  | cons a as ih =>
    simp only [pyLower, List.map_cons]
    rw [h a (List.mem_cons_self a as)]
    have htail := ih (fun c hc => h c (List.mem_cons_of_mem a hc))
    rw [pyLower] at htail
    rw [htail]

/-- The value actually produced by `encodeTokens`: the known tokens, in
order, mapped to their first index in the vocabulary. -/
def encodeTokensSpec (vocab : List (List Char)) (ws : List (List Char)) : List Nat :=
  (ws.filter (fun w => (stoi vocab w).isSome)).map (fun w => (stoi vocab w).getD 0)

/-- `encodeTokens` never raises: the guard `word in stoi` protects every
dictionary access, and unknown tokens are skipped. -/
theorem encodeTokens_eq_spec (vocab : List (List Char)) :
    ∀ (ws : List (List Char)),
    encodeTokens vocab ws = some (encodeTokensSpec vocab ws) := by
  intro ws
  induction ws with
  | nil => rfl
  | cons w ws ih =>
    simp only [encodeTokens, encodeTokensSpec, List.filter_cons]
    by_cases hw : (stoi vocab w).isSome = true
    · rcases Option.isSome_iff_exists.mp hw with ⟨i, hi⟩
      rw [if_pos hw, if_pos hw, hi, ih]
      simp [hi, encodeTokensSpec]
    · rw [if_neg hw, if_neg hw, ih]
      rfl

/-- Decoding the ids produced by `encodeTokens` recovers exactly the
known tokens. -/
theorem itosList_encodeTokensSpec (vocab : List (List Char)) :
    ∀ (ws : List (List Char)),
    itosList vocab (encodeTokensSpec vocab ws) =
      some (ws.filter (fun w => (stoi vocab w).isSome)) := by
  intro ws
  induction ws with
  | nil => rfl
  | cons w ws ih =>
    simp only [encodeTokensSpec, List.filter_cons]
    by_cases hw : (stoi vocab w).isSome = true
    · rcases Option.isSome_iff_exists.mp hw with ⟨i, hi⟩
      rw [if_pos hw]
      simp only [List.map_cons, itosList, hi, Option.getD_some]
      rw [show itos vocab i = vocab[i]? from rfl, dictIdx_getElem vocab w i hi]
      rw [encodeTokensSpec] at ih
      rw [ih]
    · rw [if_neg hw]
      exact ih

theorem mem_joinRest :
    ∀ (ws : List (List Char)) (c : Char), c ∈ joinRest ws →
    c = ' ' ∨ ∃ w ∈ ws, c ∈ w := by
  intro ws
  induction ws with
  | nil => intro c hc; simp [joinRest] at hc
  | cons w ws ih =>
    intro c hc
    simp only [joinRest, List.mem_append] at hc
    rcases hc with hc | hc
    · by_cases hp : isSubstrOf w punctChars = true
      · rw [if_pos hp] at hc
        exact Or.inr ⟨w, List.mem_cons_self w ws, hc⟩
      · rw [if_neg hp] at hc
        rcases List.mem_cons.mp hc with h | h
        · exact Or.inl h
        · exact Or.inr ⟨w, List.mem_cons_self w ws, h⟩
    · rcases ih c hc with h | ⟨v, hv, hcv⟩
      · exact Or.inl h
      · exact Or.inr ⟨v, List.mem_cons_of_mem w hv, hcv⟩

theorem mem_joinWords {ws : List (List Char)} {c : Char} (hc : c ∈ joinWords ws) :
    c = ' ' ∨ ∃ w ∈ ws, c ∈ w := by
  cases ws with
  | nil => simp [joinWords] at hc
  | cons w ws =>
    simp only [joinWords, List.mem_append] at hc
    rcases hc with hc | hc
    · exact Or.inr ⟨w, List.mem_cons_self w ws, hc⟩
    · rcases mem_joinRest ws c hc with h | ⟨v, hv, hcv⟩
      · exact Or.inl h
      · exact Or.inr ⟨v, List.mem_cons_of_mem w hv, hcv⟩

/-- The nanoGPT round trip: `encode` always succeeds, its output decodes
(`decode` raises no `KeyError`), and re-encoding the decoded string gives
the same id list.  This holds for every vocabulary list and hence in
particular for the one the notebook builds. -/
theorem encode_decode_encode (vocab : List (List Char)) (s : List Char) :
    ∃ l u, encode vocab s = some l ∧ decode vocab l = some u ∧
      encode vocab u = some l := by
  have hgood : ∀ w ∈ findallTokens (pyLower s), goodToken w :=
    findallTokens_goodToken (pyLower s)
  have hchars : ∀ w ∈ findallTokens (pyLower s), ∀ c ∈ w, c ∈ pyLower s :=
    findallTokens_chars (pyLower s)
  refine ⟨encodeTokensSpec vocab (findallTokens (pyLower s)),
    joinWords ((findallTokens (pyLower s)).filter (fun w => (stoi vocab w).isSome)),
    encodeTokens_eq_spec vocab _, ?_, ?_⟩
  · rw [decode, itosList_encodeTokensSpec vocab _]
    rfl
  · have hgood0 : ∀ w ∈ (findallTokens (pyLower s)).filter
        (fun w => (stoi vocab w).isSome), goodToken w :=
      fun w hw => hgood w (List.mem_filter.mp hw).1
    have hfix : ∀ c ∈ joinWords ((findallTokens (pyLower s)).filter
        (fun w => (stoi vocab w).isSome)), pyLowerChar c = c := by
      intro c hc
      rcases mem_joinWords hc with h | ⟨w, hw, hcw⟩
      · rw [h]
        decide
      · exact pyLower_mem_fixed (hchars w (List.mem_filter.mp hw).1 c hcw)
    rw [encode, pyLower_fixed hfix, findallTokens_joinWords _ hgood0,
      encodeTokens_eq_spec vocab _]
    have hff : ((findallTokens (pyLower s)).filter
          (fun w => (stoi vocab w).isSome)).filter
          (fun w => (stoi vocab w).isSome) =
        (findallTokens (pyLower s)).filter (fun w => (stoi vocab w).isSome) := by
      rw [List.filter_filter]
      simp
    rw [encodeTokensSpec, encodeTokensSpec, hff]

/-- `ndigit = 2` of the adder notebook (up to 2-digit numbers). -/
def ndigit : Nat := 2

/-- `max_answer = (10**ndigit - 1) + (10**ndigit - 1)`, kept generic in
the number of digits. -/
def max_answer (nd : Nat) : Nat := (10 ^ nd - 1) + (10 ^ nd - 1)

/-- `num_answer_classes = max_answer + 1`. -/
def num_answer_classes (nd : Nat) : Nat := max_answer nd + 1

/-- `input_chars = '0123456789+= '` of the adder notebook. -/
def input_chars : List Char := "0123456789+= ".toList

/-- `input_stoi`, the character-to-id dictionary of the adder notebook;
`none` models a `KeyError`. -/
def input_stoi (c : Char) : Option Nat := dictIdx input_chars c

/-- `input_itos`, the id-to-character dictionary of the adder notebook;
`none` models a `KeyError`. -/
def input_itos (i : Nat) : Option Char := input_chars[i]?

/-- `encode_input(s) = [input_stoi[c] for c in s]`: every character is
looked up unguarded, so one unknown character makes the whole call raise
(`none`). -/
def encode_input : List Char → Option (List Nat)
  | [] => some []
  | c :: s =>
    match input_stoi c, encode_input s with
    | some i, some l => some (i :: l)
    | _, _ => none

/-- `decode_input(l) = ''.join([input_itos[i] for i in l])`; an unknown
id raises (`none`). -/
def decode_input : List Nat → Option (List Char)
  | [] => some []
  | i :: l =>
    match input_itos i, decode_input l with
    | some c, some s => some (c :: s)
    | _, _ => none

/-- The decimal digit character for `d` (`'0'`..`'9'` for `d ≤ 9`). -/
def digitChar (d : Nat) : Char := Char.ofNat (48 + d)

/-- Decimal representation with explicit fuel (structural recursion);
`pyStr` instantiates the fuel with a sufficient value. -/
def pyStrAux : Nat → Nat → List Char
  | 0, _ => []
  | fuel + 1, n =>
    if n < 10 then [digitChar n]
    else pyStrAux fuel (n / 10) ++ [digitChar (n % 10)]

/-- Python `str(n)` for a non-negative integer: decimal digits, no sign,
no leading zeros, `"0"` for zero. -/
def pyStr (n : Nat) : List Char := pyStrAux (n + 1) n

/-- `generate_addition_data` of the adder notebook, with the two draws
`a = random.randint(0, 10**num_digits - 1)` and
`b = random.randint(0, 10**num_digits - 1)` made explicit arguments:
it returns the question `f"{a}+{b}="` and the answer `c = a + b`. -/
def generate_addition_data (a b : Nat) : List Char × Nat :=
  (pyStr a ++ '+' :: (pyStr b ++ ['=']), a + b)

/-- `max_question_length = ndigit + 1 + ndigit + 1`. -/
def max_question_length (nd : Nat) : Nat := nd + 1 + nd + 1

/-- Python `str.ljust(n)`: pad on the right with spaces up to width `n`;
a longer string is returned unchanged (no truncation). -/
def ljust (s : List Char) (n : Nat) : List Char :=
  s ++ List.replicate (n - s.length) ' '

/-- Reading a digit string back as a number (most significant first). -/
def parseDecimal (s : List Char) : Nat :=
  s.foldl (fun acc c => acc * 10 + (c.toNat - 48)) 0

theorem digitChar_toNat : ∀ d, d < 10 → (digitChar d).toNat = 48 + d := by
  decide

theorem digitChar_mem_input_chars : ∀ d, d < 10 → digitChar d ∈ input_chars := by
  decide

theorem pyStrAux_length_le :
    ∀ (fuel n d : Nat), 1 ≤ d → n < 10 ^ d → (pyStrAux fuel n).length ≤ d := by
  intro fuel
  induction fuel with
  | zero =>
    intro n d _ _
    simp [pyStrAux]
  | succ f ih =>
    intro n d hd hn
    by_cases h10 : n < 10
    · simp only [pyStrAux, h10, if_pos, List.length_cons, List.length_nil]
      omega
    · simp only [pyStrAux, h10, if_neg, not_false_iff, List.length_append,
        List.length_cons, List.length_nil]
      have hd2 : 2 ≤ d := by
        by_contra hlt
        have hd1 : d = 1 := by omega
        subst hd1
        simp at hn
        omega
      have hsub : d - 1 + 1 = d := by omega
      have hpow : 10 ^ d = 10 ^ (d - 1) * 10 := by
        have h2 : 10 ^ (d - 1 + 1) = 10 ^ (d - 1) * 10 := Nat.pow_succ 10 (d - 1)
        rw [hsub] at h2
        exact h2
      have hdiv : n / 10 < 10 ^ (d - 1) := by
        rw [Nat.div_lt_iff_lt_mul (by omega : 0 < 10)]
        calc n < 10 ^ d := hn
        _ = 10 ^ (d - 1) * 10 := hpow
      have := ih (n / 10) (d - 1) (by omega) hdiv
      omega

theorem pyStrAux_length_pos :
    ∀ (fuel n : Nat), 1 ≤ fuel → 1 ≤ (pyStrAux fuel n).length := by
  intro fuel n hf
  cases fuel with
  | zero => omega
  | succ f =>
    by_cases h10 : n < 10
    · simp [pyStrAux, h10]
    · simp [pyStrAux, h10]

theorem pyStrAux_chars :
    ∀ (fuel n : Nat), ∀ c ∈ pyStrAux fuel n, ∃ d, d < 10 ∧ c = digitChar d := by
  intro fuel
  induction fuel with
  | zero => intro n c hc; simp [pyStrAux] at hc
  | succ f ih =>
    intro n c hc
    by_cases h10 : n < 10
    · simp only [pyStrAux, h10, if_pos, List.mem_singleton] at hc
      exact ⟨n, h10, hc⟩
    · simp only [pyStrAux, h10, if_neg, not_false_iff, List.mem_append,
        List.mem_singleton] at hc
      rcases hc with hc | hc
      · exact ih (n / 10) c hc
      · exact ⟨n % 10, Nat.mod_lt n (by omega), hc⟩

theorem pyStr_length_le {n d : Nat} (hd : 1 ≤ d) (hn : n < 10 ^ d) :
    (pyStr n).length ≤ d :=
  pyStrAux_length_le (n + 1) n d hd hn

theorem pyStr_chars {n : Nat} : ∀ c ∈ pyStr n, ∃ d, d < 10 ∧ c = digitChar d :=
  pyStrAux_chars (n + 1) n

theorem pyStrAux_parse :
    ∀ (fuel n acc : Nat), n < 10 ^ fuel →
    List.foldl (fun acc c => acc * 10 + (c.toNat - 48)) acc (pyStrAux fuel n) =
      acc * 10 ^ (pyStrAux fuel n).length + n := by
  intro fuel
  induction fuel with
  | zero =>
    intro n acc hn
    simp at hn
    simp [pyStrAux, hn]
  | succ f ih =>
    intro n acc hn
    by_cases h10 : n < 10
    · simp only [pyStrAux, h10, if_pos, List.foldl_cons, List.foldl_nil,
        List.length_cons, List.length_nil]
      rw [digitChar_toNat n h10]
      simp [Nat.pow_succ]
    · simp only [pyStrAux, h10, if_neg, not_false_iff, List.foldl_append,
        List.foldl_cons, List.foldl_nil, List.length_append, List.length_cons,
        List.length_nil]
      have hdiv : n / 10 < 10 ^ f := by
        rw [Nat.div_lt_iff_lt_mul (by omega : 0 < 10)]
        calc n < 10 ^ (f + 1) := hn
        _ = 10 ^ f * 10 := by rw [Nat.pow_succ]
      rw [ih (n / 10) acc hdiv, digitChar_toNat (n % 10) (Nat.mod_lt n (by omega))]
      have hmod : 48 + n % 10 - 48 = n % 10 := by omega
      rw [hmod, Nat.pow_succ, Nat.add_mul, ← Nat.mul_assoc]
      omega

/-- `str` followed by decimal parsing is the identity: the question
string printed by `generate_addition_data` denotes the operands. -/
theorem parseDecimal_pyStr (n : Nat) : parseDecimal (pyStr n) = n := by
  have hbound : n < 10 ^ (n + 1) := by
    calc n < 10 ^ n := Nat.lt_pow_self (by omega) n
    _ ≤ 10 ^ (n + 1) := Nat.pow_le_pow_right (by omega) (Nat.le_succ n)
  have := pyStrAux_parse (n + 1) n 0 hbound
  rw [parseDecimal, pyStr, this]
  simp

theorem input_stoi_isSome (c : Char) :
    (input_stoi c).isSome = true ↔ c ∈ input_chars :=
  dictIdx_isSome input_chars c

/-- On a string of known characters, `encode_input` succeeds and
preserves the length. -/
theorem encode_input_length :
    ∀ (s : List Char), (∀ c ∈ s, c ∈ input_chars) →
    ∃ l, encode_input s = some l ∧ l.length = s.length := by
  intro s
  induction s with
  | nil => intro _; exact ⟨[], rfl, rfl⟩
  | cons c s ih =>
    intro hmem
    have hc : (input_stoi c).isSome = true :=
      (input_stoi_isSome c).mpr (hmem c (List.mem_cons_self c s))
    rcases Option.isSome_iff_exists.mp hc with ⟨i, hi⟩
    rcases ih (fun d hd => hmem d (List.mem_cons_of_mem c hd)) with ⟨l, hl, hlen⟩
    refine ⟨i :: l, ?_, by simp [hlen]⟩
    simp [encode_input, hi, hl]

/-- `encode_input` raises exactly when the string contains a character
that is not in the input vocabulary. -/
theorem encode_input_none_iff :
    ∀ (s : List Char), encode_input s = none ↔ ∃ c ∈ s, input_stoi c = none := by
  intro s
  induction s with
  | nil => simp [encode_input]
  | cons c s ih =>
    cases hci : input_stoi c with
    | none =>
      simp only [encode_input, hci]
      constructor
      · intro _
        exact ⟨c, List.mem_cons_self c s, hci⟩
      · intro _
        cases encode_input s <;> trivial
    | some i =>
      cases hsi : encode_input s with
      | none =>
        simp only [encode_input, hci, hsi]
        rw [hsi] at ih
        constructor
        · intro _
          rcases ih.mp rfl with ⟨d, hd, hdn⟩
          exact ⟨d, List.mem_cons_of_mem c hd, hdn⟩
        · intro _
          trivial
      | some l =>
        simp only [encode_input, hci, hsi]
        rw [hsi] at ih
        constructor
        · intro h
          simp at h
        · intro h
          rcases h with ⟨d, hd, hdn⟩
          rcases List.mem_cons.mp hd with h | h
          · subst h
            rw [hdn] at hci
            simp at hci
          · rcases ih.mpr ⟨d, h, hdn⟩

/-- Decoding after a successful `encode_input` recovers the string. -/
theorem decode_encode_input :
    ∀ (s : List Char) (l : List Nat), encode_input s = some l →
    decode_input l = some s := by
  intro s
  induction s with
  | nil =>
    intro l h
    simp only [encode_input] at h
    rw [← Option.some_inj.mp h]
    rfl
  | cons c s ih =>
    intro l h
    cases hci : input_stoi c with
    | none => simp [encode_input, hci] at h
    | some i =>
      cases hsi : encode_input s with
      | none => simp [encode_input, hci, hsi] at h
      | some l2 =>
        simp only [encode_input, hci, hsi] at h
        rw [← Option.some_inj.mp h]
        have hitos : input_itos i = some c := dictIdx_getElem input_chars c i hci
        simp [decode_input, hitos, ih l2 hsi]

/-- `batch_size = 32` (both notebooks). -/
def batch_size : Nat := 32

/-- `block_size = 10` (context window of the nanoGPT notebook). -/
def block_size : Nat := 10

/-- `data[i:i+n]` on an integer tensor. -/
def slice (data : List Nat) (i n : Nat) : List Nat := (data.drop i).take n

/-- `get_batch(split)` of the nanoGPT notebook, with the selected
split's data and the random draws `ix = torch.randint(len(data) -
block_size, (batch_size,))` (a list of `batch_size` indices, each below
`len(data) - block_size`) made explicit arguments:
`x = stack([data[i:i+block_size] for i in ix])` and
`y = stack([data[i+1:i+block_size+1] for i in ix])`. -/
def getBatchNano (data : List Nat) (ix : List Nat) :
    List (List Nat) × List (List Nat) :=
  (ix.map (fun i => slice data i block_size),
   ix.map (fun i => slice data (i + 1) block_size))

/-- Shape of the rank-2 tensor built by `torch.stack` / `torch.tensor`
from a list of equal-length rows. -/
def tensorShape2 (m : List (List Nat)) : List Nat :=
  [m.length, (m.headD []).length]

/-- Shape of a rank-1 tensor. -/
def tensorShape1 (v : List Nat) : List Nat := [v.length]

theorem slice_length {data : List Nat} {i n : Nat} (h : i + n ≤ data.length) :
    (slice data i n).length = n := by
  simp only [slice, List.length_take, List.length_drop]
  omega

theorem slice_getElem {data : List Nat} {i n t : Nat} (ht : t < n) :
    (slice data i n)[t]? = data[i + t]? := by
  simp only [slice, List.getElem?_take, ht, if_pos, List.getElem?_drop]

/-- One example of the adder `get_batch` body: generate a problem from
the two draws, pad the question with `ljust(max_question_length)` and
encode it. -/
def encodeQuestion (a b : Nat) : Option (List Nat) :=
  encode_input (ljust (generate_addition_data a b).1 (max_question_length ndigit))

/-- The `questions` list accumulated by the adder `get_batch` loop;
`none` if any `encode_input` call raises. -/
def adderQuestionRows : List (Nat × Nat) → Option (List (List Nat))
  | [] => some []
  | p :: ps =>
    match encodeQuestion p.1 p.2, adderQuestionRows ps with
    | some q, some qs => some (q :: qs)
    | _, _ => none

/-- `get_batch()` of the adder notebook, with the per-example draws
`(a, b)` of `generate_addition_data` made explicit:
`x = torch.tensor(questions)` (rank 2) and `y = torch.tensor(answers)`
(rank 1, one integer label per example). -/
def getBatchAdder (pairs : List (Nat × Nat)) :
    Option (List (List Nat) × List Nat) :=
  (adderQuestionRows pairs).map
    (fun qs => (qs, pairs.map (fun p => (generate_addition_data p.1 p.2).2)))

theorem generate_question_chars (a b : Nat) :
    ∀ c ∈ (generate_addition_data a b).1, c ∈ input_chars := by
  intro c hc
  simp only [generate_addition_data, List.mem_append, List.mem_cons] at hc
  rcases hc with h | h | h
  · rcases pyStr_chars c h with ⟨d, hd, hcd⟩
    subst hcd
    exact digitChar_mem_input_chars d hd
  · subst h
    decide
  · rcases h with h2 | h2 | h2
    · rcases pyStr_chars c h2 with ⟨d, hd, hcd⟩
      subst hcd
      exact digitChar_mem_input_chars d hd
    · subst h2
      decide
    · simp at h2

theorem generate_question_length {nd a b : Nat} (hnd : 1 ≤ nd)
    (ha : a < 10 ^ nd) (hb : b < 10 ^ nd) :
    (generate_addition_data a b).1.length ≤ max_question_length nd := by
  have h1 := pyStr_length_le hnd ha
  have h2 := pyStr_length_le hnd hb
  simp only [generate_addition_data, max_question_length, List.length_append,
    List.length_cons, List.length_nil]
  omega

theorem ljust_length {s : List Char} {n : Nat} (h : s.length ≤ n) :
    (ljust s n).length = n := by
  simp only [ljust, List.length_append, List.length_replicate]
  omega

theorem ljust_chars {s : List Char} {n : Nat}
    (hs : ∀ c ∈ s, c ∈ input_chars) :
    ∀ c ∈ ljust s n, c ∈ input_chars := by
  intro c hc
  rcases List.mem_append.mp hc with h | h
  · exact hs c h
  · rw [(List.eq_of_mem_replicate h : c = ' ')]
    decide

/-- The padded, encoded question of one adder example has exactly the
configured maximum length, for any `ndigit ≥ 1` and operands below
`10 ^ ndigit` (the ranges of `random.randint(0, 10**num_digits - 1)`). -/
theorem encoded_question_length {nd a b : Nat} (hnd : 1 ≤ nd)
    (ha : a < 10 ^ nd) (hb : b < 10 ^ nd) :
    ∃ e, encode_input (ljust (generate_addition_data a b).1
        (max_question_length nd)) = some e ∧
      e.length = max_question_length nd := by
  have hq := generate_question_length hnd ha hb
  have hlen := ljust_length hq
  rcases encode_input_length _ (ljust_chars (generate_question_chars a b)) with
    ⟨e, he, helen⟩
  exact ⟨e, he, by rw [helen, hlen]⟩

/-- `temperature = 1` as set inside the generation loop. -/
def temperature : ℚ := 1

/-- `generated[:, -block_size:] if generated.size(1) > block_size else
generated`: the context window fed to the model. -/
def cropContext (g : List Nat) : List Nat :=
  if g.length > block_size then g.drop (g.length - block_size) else g

/-- One iteration of the generation loop: crop the context, run the
model, take the logits of the last position, divide by the temperature,
sample one token from the softmax distribution and append it.  The
model is the trained network (a black box here, `modelFn`), and
`sample` encapsulates `multinomial(softmax(·))`, consuming the scaled
logits. -/
def genStep (modelFn : List Nat → List (List ℚ)) (sample : List ℚ → Nat)
    (temp : ℚ) (g : List Nat) : List Nat :=
  g ++ [sample (((modelFn (cropContext g)).getLastD []).map (fun z => z / temp))]

/-- `for _ in range(n)` around `genStep`. -/
def genLoop (modelFn : List Nat → List (List ℚ)) (sample : List ℚ → Nat)
    (temp : ℚ) : Nat → List Nat → List Nat
  | 0, g => g
  | n + 1, g => genLoop modelFn sample temp n (genStep modelFn sample temp g)

/-- The full generation loop of the nanoGPT notebook: exactly 50
iterations, each appending one sampled token; no stopping-token logic. -/
def generateText (modelFn : List Nat → List (List ℚ)) (sample : List ℚ → Nat)
    (context : List Nat) : List Nat :=
  genLoop modelFn sample temperature 50 context

theorem genLoop_length (modelFn : List Nat → List (List ℚ))
    (sample : List ℚ → Nat) (temp : ℚ) :
    ∀ (n : Nat) (g : List Nat),
    (genLoop modelFn sample temp n g).length = g.length + n := by
  intro n
  induction n with
  | zero => intro g; rfl
  | succ m ih =>
    intro g
    show (genLoop modelFn sample temp m (genStep modelFn sample temp g)).length = _
    rw [ih (genStep modelFn sample temp g)]
    simp only [genStep, List.length_append, List.length_cons, List.length_nil]
    omega

/-- Modelled from the spec: the seeded pseudo-random generator
(`random.seed` / `np.random.seed` / `torch.manual_seed` and the draws
`torch.randint` / `random.randint`) lives in third-party libraries, not
in this repository.  The spec only relies on it being a deterministic
state machine seeded by an integer; a 64-bit linear-congruential
generator stands in for it. -/
def rngNext (s : Nat) : Nat :=
  (s * 6364136223846793005 + 1442695040888963407) % 2 ^ 64

/-- One bounded draw from the generator: a value in `[0, bound)` plus
the successor state. -/
def randBelow (bound s : Nat) : Nat × Nat :=
  (rngNext s % bound, rngNext s)

/-- `torch.randint(len(data) - block_size, (batch_size,))`: `count`
draws below `bound`, threading the generator state. -/
def sampleIx : Nat → Nat → Nat → List Nat × Nat
  | 0, _, s => ([], s)
  | k + 1, bound, s =>
    let v := randBelow bound s
    let rest := sampleIx k bound v.2
    (v.1 :: rest.1, rest.2)

/-- The nanoGPT `get_batch` as run under a seeded generator. -/
def getBatchNanoSeeded (data : List Nat) (s : Nat) :
    (List (List Nat) × List (List Nat)) × Nat :=
  ((getBatchNano data (sampleIx batch_size (data.length - block_size) s).1),
   (sampleIx batch_size (data.length - block_size) s).2)

/-- `batch_size` pairs of draws `random.randint(0, 10**ndigit - 1)` for
the adder `get_batch`, threading the generator state. -/
def samplePairs : Nat → Nat → List (Nat × Nat) × Nat
  | 0, s => ([], s)
  | k + 1, s =>
    let a := randBelow (10 ^ ndigit) s
    let b := randBelow (10 ^ ndigit) a.2
    let rest := samplePairs k b.2
    ((a.1, b.1) :: rest.1, rest.2)

/-- The adder `get_batch` as run under a seeded generator. -/
def getBatchAdderSeeded (s : Nat) :
    Option (List (List Nat) × List Nat) × Nat :=
  (getBatchAdder (samplePairs batch_size s).1, (samplePairs batch_size s).2)

/-- `n` successive batches of the nanoGPT sampler from a seed. -/
def runBatchesNano (data : List Nat) : Nat → Nat →
    List (List (List Nat) × List (List Nat))
  | _, 0 => []
  | s, n + 1 =>
    (getBatchNanoSeeded data s).1 ::
      runBatchesNano data (getBatchNanoSeeded data s).2 n

/-- `n` successive batches of the adder sampler from a seed. -/
def runBatchesAdder : Nat → Nat → List (Option (List (List Nat) × List Nat))
  | _, 0 => []
  | s, n + 1 =>
    (getBatchAdderSeeded s).1 :: runBatchesAdder (getBatchAdderSeeded s).2 n

/-- For in-range draws, the adder question matrix exists and every row
has length `max_question_length ndigit`. -/
theorem adderQuestionRows_spec :
    ∀ (pairs : List (Nat × Nat)),
    (∀ p ∈ pairs, p.1 < 10 ^ ndigit ∧ p.2 < 10 ^ ndigit) →
    ∃ qs, adderQuestionRows pairs = some qs ∧ qs.length = pairs.length ∧
      ∀ q ∈ qs, q.length = max_question_length ndigit := by
  intro pairs
  induction pairs with
  | nil => intro _; exact ⟨[], rfl, rfl, by simp⟩
  | cons p ps ih =>
    intro hmem
    have hp := hmem p (List.mem_cons_self p ps)
    rcases @encoded_question_length ndigit p.1 p.2 (by decide) hp.1 hp.2 with
      ⟨e, he, helen⟩
    rcases ih (fun q hq => hmem q (List.mem_cons_of_mem p hq)) with
      ⟨qs, hqs, hqslen, hrows⟩
    refine ⟨e :: qs, ?_, by simp [hqslen], ?_⟩
    · simp only [adderQuestionRows, encodeQuestion, he, hqs]
    · intro q hq
      rcases List.mem_cons.mp hq with h | h
      · rw [h]
        exact helen
      · exact hrows q h

/-- Text of a two-word demonstration corpus used to evaluate the
nanoGPT tokenizer on concrete inputs. -/
def demoText : List Char := "an answer".toList

/-- A string containing the token `zz`, which is not in the vocabulary
built from `demoText`. -/
def badText : List Char := "an zz answer".toList

/-- The draws behind one concrete adder batch (32 copies of the problem
`2+3=`). -/
def pairsC1 : List (Nat × Nat) := List.replicate 32 (2, 3)

/-- C1, claim as stated is false on the adder tutorial: a generated
batch has a rank-2 input tensor of shape `[32, 6]` but a rank-1 target
tensor of shape `[32]`, so input and target do not have identical shape
`(batch_size × sequence_length)`. -/
theorem C1_counterexample :
    (getBatchAdder pairsC1).map (fun p => tensorShape2 p.1) = some [32, 6] ∧
    (getBatchAdder pairsC1).map (fun p => tensorShape1 p.2) = some [32] ∧
    ([32] : List Nat) ≠ [32, 6] := by
  refine ⟨by decide, by decide, by decide⟩

/-- C1 (amended): in the nanoGPT tutorial, input and target of every
generated batch both have shape `batch_size × block_size`; in the adder
tutorial, the input has shape `batch_size × max_question_length` while
the target is one-dimensional with shape `(batch_size,)`. -/
theorem C1_batch_shapes :
    (∀ (data ix : List Nat), ix.length = batch_size →
      (∀ i ∈ ix, i + block_size < data.length) →
      tensorShape2 (getBatchNano data ix).1 = [batch_size, block_size] ∧
      tensorShape2 (getBatchNano data ix).2 = [batch_size, block_size] ∧
      (∀ r ∈ (getBatchNano data ix).1, r.length = block_size) ∧
      (∀ r ∈ (getBatchNano data ix).2, r.length = block_size)) ∧
    (∀ (pairs : List (Nat × Nat)), pairs.length = batch_size →
      (∀ p ∈ pairs, p.1 < 10 ^ ndigit ∧ p.2 < 10 ^ ndigit) →
      ∃ x y, getBatchAdder pairs = some (x, y) ∧
        tensorShape2 x = [batch_size, max_question_length ndigit] ∧
        (∀ r ∈ x, r.length = max_question_length ndigit) ∧
        tensorShape1 y = [batch_size]) := by
  constructor
  · intro data ix hlen hbound
    have hx : ∀ r ∈ (getBatchNano data ix).1, r.length = block_size := by
      intro r hr
      rcases List.mem_map.mp hr with ⟨i, hi, hri⟩
      rw [← hri]
      exact slice_length (Nat.le_of_lt (hbound i hi))
    have hy : ∀ r ∈ (getBatchNano data ix).2, r.length = block_size := by
      intro r hr
      rcases List.mem_map.mp hr with ⟨i, hi, hri⟩
      rw [← hri]
      refine slice_length ?_
      have := hbound i hi
      omega
    cases ix with
    | nil => simp [batch_size] at hlen
    | cons i0 rest =>
      have hi0x : (slice data i0 block_size).length = block_size :=
        slice_length (Nat.le_of_lt (hbound i0 (List.mem_cons_self i0 rest)))
      have hi0y : (slice data (i0 + 1) block_size).length = block_size := by
        refine slice_length ?_
        have := hbound i0 (List.mem_cons_self i0 rest)
        omega
      refine ⟨?_, ?_, hx, hy⟩
      · simp only [getBatchNano, tensorShape2, List.map_cons, List.length_map,
          List.headD_cons, List.length_cons]
        rw [hi0x]
        simp only [List.length_cons] at hlen
        rw [← hlen]
      · simp only [getBatchNano, tensorShape2, List.map_cons, List.length_map,
          List.headD_cons, List.length_cons]
        rw [hi0y]
        simp only [List.length_cons] at hlen
        rw [← hlen]
  · intro pairs hlen hmem
    rcases adderQuestionRows_spec pairs hmem with ⟨qs, hqs, hqslen, hrows⟩
    refine ⟨qs, pairs.map (fun p => (generate_addition_data p.1 p.2).2),
      by simp [getBatchAdder, hqs], ?_, hrows, by simp [tensorShape1, hlen]⟩
    cases qs with
    | nil =>
      rw [hlen] at hqslen
      simp [batch_size] at hqslen
    | cons q0 qrest =>
      simp only [tensorShape2, List.headD_cons]
      rw [hrows q0 (List.mem_cons_self q0 qrest), hqslen, hlen]

/-- C1 witness: the amended shape statement evaluated on one concrete
nanoGPT batch and one concrete adder batch. -/
theorem C1_batch_shapes_witness :
    (tensorShape2 (getBatchNano (List.range 12) (List.replicate 32 0)).1 =
      [batch_size, block_size]) ∧
    (∃ x y, getBatchAdder pairsC1 = some (x, y) ∧
      tensorShape2 x = [batch_size, max_question_length ndigit] ∧
      (∀ r ∈ x, r.length = max_question_length ndigit) ∧
      tensorShape1 y = [batch_size]) :=
  ⟨(C1_batch_shapes.1 (List.range 12) (List.replicate 32 0) (by decide)
      (by decide)).1,
   C1_batch_shapes.2 pairsC1 (by decide) (by decide)⟩

/-- C2, claim as stated is false on the nanoGPT tutorial: `encode` does
not raise on a string containing the unknown token `zz`; the guard
`if word in stoi` silently drops it and encoding succeeds. -/
theorem C2_counterexample :
    "zz".toList ∈ findallTokens (pyLower badText) ∧
    "zz".toList ∉ buildVocab demoText ∧
    encode (buildVocab demoText) badText = some [0, 1] := by
  refine ⟨by decide, by decide, by decide⟩

/-- C2 (amended): in the adder tutorial, `encode_input` raises an
uncaught `KeyError` exactly when the string contains a character outside
the vocabulary; in the nanoGPT tutorial, `encode` never raises — tokens
not in the vocabulary are silently dropped by the membership guard. -/
theorem C2_unknown_token :
    (∀ (vocab : List (List Char)) (s : List Char),
      (encode vocab s).isSome = true) ∧
    (∀ (s : List Char),
      encode_input s = none ↔ ∃ c ∈ s, input_stoi c = none) := by
  constructor
  · intro vocab s
    rw [encode, encodeTokens_eq_spec]
    rfl
  · exact encode_input_none_iff

/-- C3: round trips.  In the nanoGPT tutorial, for every corpus and
every input string, re-tokenizing `decode(encode(s))` yields the same
token-id list as `encode(s)`; in the adder tutorial,
`decode_input(encode_input(s)) = s` for strings over the input
vocabulary. -/
theorem C3_roundtrip :
    (∀ (text s : List Char), ∃ l u,
      encode (buildVocab text) s = some l ∧
      decode (buildVocab text) l = some u ∧
      encode (buildVocab text) u = some l) ∧
    (∀ (s : List Char), (∀ c ∈ s, c ∈ input_chars) →
      ∃ l, encode_input s = some l ∧ decode_input l = some s) := by
  constructor
  · intro text s
    exact encode_decode_encode (buildVocab text) s
  · intro s hmem
    rcases encode_input_length s hmem with ⟨l, hl, _⟩
    exact ⟨l, hl, decode_encode_input s l hl⟩

/-- C3 witness: the adder round trip evaluated on `"2+3="`. -/
theorem C3_roundtrip_witness :
    ∃ l, encode_input "2+3=".toList = some l ∧
      decode_input l = some "2+3=".toList :=
  C3_roundtrip.2 "2+3=".toList (by decide)

/-- C4: a question generated by `generate_addition_data` with operands
in the `randint` ranges never exceeds `max_question_length`, and after
`ljust` padding its encoding has length exactly
`max_question_length = ndigit + 1 + ndigit + 1`. -/
theorem C4_padding (nd a b : Nat) (hnd : 1 ≤ nd) (ha : a < 10 ^ nd)
    (hb : b < 10 ^ nd) :
    (generate_addition_data a b).1.length ≤ max_question_length nd ∧
    ∃ e, encode_input (ljust (generate_addition_data a b).1
        (max_question_length nd)) = some e ∧
      e.length = max_question_length nd :=
  ⟨generate_question_length hnd ha hb, encoded_question_length hnd ha hb⟩

/-- C4 witness: the padding invariant evaluated at `ndigit = 2`,
`a = b = 99`. -/
theorem C4_padding_witness :
    (generate_addition_data 99 99).1.length ≤ max_question_length 2 ∧
    ∃ e, encode_input (ljust (generate_addition_data 99 99).1
        (max_question_length 2)) = some e ∧
      e.length = max_question_length 2 :=
  C4_padding 2 99 99 (by decide) (by decide) (by decide)

/-- C5: the answer returned by `generate_addition_data` is exactly the
sum of the two operands printed in the question string `"a+b="`. -/
theorem C5_answer_correct (a b : Nat) :
    ∃ sa sb, (generate_addition_data a b).1 = sa ++ '+' :: (sb ++ ['=']) ∧
      parseDecimal sa = a ∧ parseDecimal sb = b ∧
      (generate_addition_data a b).2 = parseDecimal sa + parseDecimal sb := by
  refine ⟨pyStr a, pyStr b, rfl, parseDecimal_pyStr a, parseDecimal_pyStr b, ?_⟩
  rw [parseDecimal_pyStr a, parseDecimal_pyStr b]
  rfl

/-- C6: the generation loop runs a fixed 50 iterations, appends exactly
one sampled token per iteration (final length = initial length + 50,
whatever the sampler does, i.e. no stopping-token logic), feeds at most
the last `block_size` tokens (a suffix of the current sequence) to the
model, and divides the last-position logits by the temperature before
the softmax sampler consumes them. -/
theorem C6_generation_loop (modelFn : List Nat → List (List ℚ))
    (sample : List ℚ → Nat) (context : List Nat) :
    (generateText modelFn sample context).length = context.length + 50 ∧
    (∀ g : List Nat, (cropContext g).length = min g.length block_size ∧
      ∃ pre, g = pre ++ cropContext g) ∧
    (∀ g : List Nat, genStep modelFn sample temperature g =
      g ++ [sample (((modelFn (cropContext g)).getLastD []).map
        (fun z => z / temperature))]) := by
  refine ⟨genLoop_length modelFn sample temperature 50 context, ?_, fun g => rfl⟩
  intro g
  by_cases hg : g.length > block_size
  · constructor
    · simp only [cropContext, hg, if_pos, List.length_drop]
      omega
    · refine ⟨g.take (g.length - block_size), ?_⟩
      simp only [cropContext, hg, if_pos]
      exact (List.take_append_drop _ g).symm
  · constructor
    · simp only [cropContext, hg, if_neg, not_false_iff]
      omega
    · exact ⟨[], by simp [cropContext, hg]⟩

/-- C7: the vocabulary mappings are bidirectional inverses for the
vocabulary built from any corpus (the construction is duplicate-free):
`itos[stoi[w]] = w` for every vocabulary word and `stoi[itos[i]] = i`
for every id, and likewise for `input_stoi` / `input_itos` in the adder
tutorial. -/
theorem C7_vocab_inverse (text : List Char) :
    (buildVocab text).Nodup ∧
    (∀ w ∈ buildVocab text,
      (stoi (buildVocab text) w).bind (itos (buildVocab text)) = some w) ∧
    (∀ i, i < (buildVocab text).length →
      (itos (buildVocab text) i).bind (stoi (buildVocab text)) = some i) ∧
    (∀ c ∈ input_chars, (input_stoi c).bind input_itos = some c) ∧
    (∀ i, i < input_chars.length →
      (input_itos i).bind input_stoi = some i) := by
  refine ⟨buildVocab_nodup text, ?_, ?_, by decide, by decide⟩
  · intro w hw
    have hsome : (dictIdx (buildVocab text) w).isSome = true :=
      (dictIdx_isSome _ w).mpr hw
    rcases Option.isSome_iff_exists.mp hsome with ⟨i, hi⟩
    rw [stoi, hi, Option.some_bind]
    exact dictIdx_getElem _ w i hi
  · intro i hi
    have hget : itos (buildVocab text) i = some ((buildVocab text).get ⟨i, hi⟩) := by
      rw [itos, List.getElem?_eq_getElem hi]
      rfl
    rw [hget, Option.some_bind, stoi]
    exact dictIdx_of_nodup _ (buildVocab_nodup text) i hi

/-- C7 witness: both inverse directions evaluated on the vocabulary of
a concrete corpus and on the adder input vocabulary. -/
theorem C7_vocab_inverse_witness :
    ((stoi (buildVocab demoText) "an".toList).bind
      (itos (buildVocab demoText)) = some "an".toList) ∧
    ((input_stoi '+').bind input_itos = some '+') ∧
    ((input_itos 12).bind input_stoi = some 12) :=
  ⟨(C7_vocab_inverse demoText).2.1 "an".toList (by decide),
   (C7_vocab_inverse demoText).2.2.2.1 '+' (by decide),
   (C7_vocab_inverse demoText).2.2.2.2 12 (by decide)⟩

/-- C8: every row of a nanoGPT batch is a contiguous window
`data[i:i+block_size]` for an in-range start index drawn by the sampler,
the matching target row is `data[i+1:i+block_size+1]`, and the target at
each position is the token immediately following the input token at that
position. -/
theorem C8_contiguous_windows (data ix : List Nat)
    (hbound : ∀ i ∈ ix, i + block_size < data.length) :
    ∀ k, k < ix.length → ∃ i, i ∈ ix ∧ i + block_size < data.length ∧
      ((getBatchNano data ix).1)[k]? = some (slice data i block_size) ∧
      ((getBatchNano data ix).2)[k]? = some (slice data (i + 1) block_size) ∧
      (∀ t, t < block_size →
        (slice data (i + 1) block_size)[t]? = data[i + 1 + t]?) ∧
      (∀ t, t + 1 < block_size →
        (slice data (i + 1) block_size)[t]? =
          (slice data i block_size)[t + 1]?) := by
  intro k hk
  refine ⟨ix.get ⟨k, hk⟩, List.get_mem ix k hk,
    hbound _ (List.get_mem ix k hk), ?_, ?_, ?_, ?_⟩
  · show (ix.map (fun i => slice data i block_size))[k]? = _
    rw [List.getElem?_map, List.getElem?_eq_getElem hk]
    rfl
  · show (ix.map (fun i => slice data (i + 1) block_size))[k]? = _
    rw [List.getElem?_map, List.getElem?_eq_getElem hk]
    rfl
  · intro t ht
    exact slice_getElem ht
  · intro t ht
    rw [slice_getElem (by omega : t < block_size),
      slice_getElem (by omega : t + 1 < block_size)]
    congr 1
    omega

/-- C8 witness: the window/shift property evaluated on a concrete data
list and index draw. -/
theorem C8_contiguous_windows_witness :
    ∃ i, i ∈ [0, 1] ∧ i + block_size < (List.range 12).length ∧
      ((getBatchNano (List.range 12) [0, 1]).1)[0]? =
        some (slice (List.range 12) i block_size) ∧
      ((getBatchNano (List.range 12) [0, 1]).2)[0]? =
        some (slice (List.range 12) (i + 1) block_size) ∧
      (∀ t, t < block_size →
        (slice (List.range 12) (i + 1) block_size)[t]? =
          (List.range 12)[i + 1 + t]?) ∧
      (∀ t, t + 1 < block_size →
        (slice (List.range 12) (i + 1) block_size)[t]? =
          (slice (List.range 12) i block_size)[t + 1]?) :=
  C8_contiguous_windows (List.range 12) [0, 1] (by decide) 0 (by decide)

/-- C9: the batch samplers are deterministic functions of the seeded
generator state: two runs from equal seeds produce element-wise equal
sequences of batches, in both tutorials. -/
theorem C9_seed_determinism (data : List Nat) (s1 s2 : Nat)
    (hseed : s1 = s2) (n : Nat) :
    runBatchesNano data s1 n = runBatchesNano data s2 n ∧
    runBatchesAdder s1 n = runBatchesAdder s2 n := by
  subst hseed
  exact ⟨rfl, rfl⟩

/-- C9 witness: two seeded runs of both samplers coincide on a concrete
data list, seed and run length. -/
theorem C9_seed_determinism_witness :
    runBatchesNano (List.range 12) 42 2 = runBatchesNano (List.range 12) 42 2 ∧
    runBatchesAdder 42 2 = runBatchesAdder 42 2 :=
  C9_seed_determinism (List.range 12) 42 42 rfl 2

/-- C10: for operands in the `randint` ranges, the generated answer is
at most `max_answer` and hence a valid class label below
`num_answer_classes`. -/
theorem C10_label_in_range (nd a b : Nat) (ha : a < 10 ^ nd)
    (hb : b < 10 ^ nd) :
    (generate_addition_data a b).2 ≤ max_answer nd ∧
    (generate_addition_data a b).2 < num_answer_classes nd := by
  have hpos : 0 < 10 ^ nd := Nat.pos_pow_of_pos nd (by omega)
  have h2 : (generate_addition_data a b).2 = a + b := rfl
  rw [h2, max_answer, num_answer_classes, max_answer]
  omega

/-- C10 witness: the label range evaluated at `ndigit = 2`,
`a = b = 99`. -/
theorem C10_label_in_range_witness :
    (generate_addition_data 99 99).2 ≤ max_answer 2 ∧
    (generate_addition_data 99 99).2 < num_answer_classes 2 :=
  C10_label_in_range 2 99 99 (by decide) (by decide)

end Tutorials
